import Mathlib

/-!
Verification of the fork-join sorting engine in beached/fj_sort.

The development shallowly embeds the C++ sources:
  * src/include/daw/fj_sort.h   - span, partition_range, reduce_futures2,
    reduce_futures, parallel_sort_merger, fj_sort
  * src/include/daw/call_dag.h  - the promise (future/promise) result cell

Iterators are modelled as natural-number offsets into a Lean `List`; the
sequence being sorted is the list itself.  Loops that the source does not
bound are given explicit fuel, with `none` denoting a run that does not
terminate or that performs an out-of-bounds access (both undefined in C++).
-/

namespace daw

variable {α : Type}

/-- `impl::span<Iterator>` (fj_sort.h lines 38-59): a pair of iterators into
the sequence, modelled as offsets `first`/`last` (the source field names). -/
structure span where
  first : ℕ
  last : ℕ
deriving DecidableEq

/-- The partition loop of `impl::partition_range` (fj_sort.h lines 72-76):
`for( ; start_pos < range_sz; start_pos += part_sz ) { emplace_back(start_it,
next(start_it, part_sz)); }`.  `part` is `part_sz`, `S` is `range_sz`, the
second component of the result is the final value of `start_pos`.  The loop
has no other exit, so it is given fuel; `none` means the fuel ran out, which
for `part = 0 < S` is a genuinely non-terminating run. -/
def partLoop (part S : ℕ) : ℕ → ℕ → Option (List span × ℕ)
  | 0, start => if start < S then none else some ([], start)
  | fuel + 1, start =>
    if start < S then
      (partLoop part S fuel (start + part)).map
        (fun p => (⟨start, start + part⟩ :: p.1, p.2))
    else some ([], start)

/-- `impl::partition_range` (fj_sort.h lines 64-83).  `part_sz = range_sz / P`
where in the source `P = std::thread::hardware_concurrency()`; the claims fix
`P ≥ 1`.  After the loop the source has `if( start_pos < range_sz )` emitting
one remainder span `[start_pos, range_sz)`; it is kept here even though the
loop only exits with `start_pos ≥ range_sz`, making that branch dead. -/
def partition_range (S P fuel : ℕ) : Option (List span) :=
  let part := S / P
  match partLoop part S fuel 0 with
  | none => none
  | some (spans, fin) =>
    if fin < S then some (spans ++ [⟨fin, fin + (S - fin)⟩]) else some spans

/-! ### The promise result cell (call_dag.h lines 37-172)

The cell is `std::variant<std::monostate, T, std::exception_ptr,
std::function<void(std::variant<T, std::exception_ptr>)>>`, so the variant
stores `monostate` at index 0, `T` at index 1, `exception_ptr` at index 2 and
the continuation at index 3.  The source accesses it through the enum
`enum var_pos { pos_empty, pos_eptr, pos_value, pos_cont };` (line 42), whose
values are reproduced below exactly as declared. -/

def pos_empty : ℕ := 0
def pos_eptr : ℕ := 1
def pos_value : ℕ := 2
def pos_cont : ℕ := 3

/-- What a variant alternative can hold: the monostate, a value of `T`, an
exception (opaque, identified by a number), or a continuation (opaque). -/
inductive PPayload (T : Type) where
  | pmono
  | pval (v : T)
  | perr (e : ℕ)
  | pcont (k : ℕ)
deriving DecidableEq

/-- The promise's `m_result` variant: the active index together with the data
that was placed there.  Keeping the index separate from the payload lets the
model express the source storing a payload at a mismatched index, which is
exactly what `promise::set` does (see `promise_set`). -/
structure PCell (T : Type) where
  idx : ℕ
  payload : PPayload T
deriving DecidableEq

/-- A freshly constructed promise: `variant_t m_result{}` default-constructs
the index-0 alternative `std::monostate` (call_dag.h line 43). -/
def emptyCell {T : Type} : PCell T := ⟨pos_empty, PPayload.pmono⟩

/-- One invocation of the stored continuation.  The continuation receives a
`std::variant<T, std::exception_ptr>`; `slot` is the index used with
`std::in_place_index` (0 = value alternative, 1 = exception alternative) and
`arg` the datum forwarded into it. -/
structure ContArg (T : Type) where
  slot : ℕ
  arg : PPayload T
deriving DecidableEq

/-- Outcome of `promise::set` (call_dag.h lines 51-82). -/
inductive SetResult (T : Type) where
  | stored (c : PCell T)
  | invoked (calls : List (ContArg T))
  | terminated
deriving DecidableEq

/-- `promise::set(idx, value)` (call_dag.h lines 51-82).  Under the mutex: if
the cell is empty, store `value` at variant index `idx`
(`m_result = variant_t(std::in_place_index<idx>, value)`); otherwise extract
the continuation with `std::get<pos_cont>(std::move(m_result))` and run the
`switch( idx )` at lines 74-81.  The `case pos_value:` arm of that switch has
no `break`, so after invoking the continuation with
`variant(in_place_index<0>, value)` control falls through into
`case pos_eptr:` and invokes it again with `variant(in_place_index<1>,
value)`; the model records the invocation list verbatim.  If the cell holds a
value or an exception instead of a continuation, `std::get<pos_cont>` throws
`std::bad_variant_access` inside the `noexcept` member, terminating the
process. -/
def promise_set {T : Type} (c : PCell T) (idx : ℕ) (u : PPayload T) : SetResult T :=
  if c.idx = pos_empty then SetResult.stored ⟨idx, u⟩
  else if c.idx = pos_cont then
    SetResult.invoked
      (if idx = pos_value then [⟨0, u⟩, ⟨1, u⟩]
       else if idx = pos_eptr then [⟨1, u⟩]
       else [])
  else SetResult.terminated

/-- `promise::set_value` (call_dag.h lines 89-91): `set( pos_value, move(value) )`. -/
def set_value {T : Type} (c : PCell T) (v : T) : SetResult T :=
  promise_set c pos_value (PPayload.pval v)

/-- `promise::set_exception` (call_dag.h lines 93-95): `set( pos_eptr, ptr )`. -/
def set_exception {T : Type} (c : PCell T) (e : ℕ) : SetResult T :=
  promise_set c pos_eptr (PPayload.perr e)

/-- `promise::is_ready` (call_dag.h lines 84-86):
`m_result.index() == pos_value or m_result.index() == pos_eptr`. -/
def is_ready {T : Type} (c : PCell T) : Bool :=
  c.idx = pos_value || c.idx = pos_eptr

/-- `promise::has_value` (call_dag.h lines 163-166): after waiting,
`m_result.index() == 1` (a numeric literal in the source, not the enum). -/
def has_value {T : Type} (c : PCell T) : Bool :=
  c.idx = 1

/-- What a call to `promise::get` (call_dag.h lines 148-154) does: `wait()`
blocks until `is_ready()`, then the value is returned when the active index
is the literal `1`, otherwise the alternative at the literal index `2` is
rethrown as an exception. -/
inductive GetOutcome (T : Type) where
  | blocks
  | returns (p : PPayload T)
  | throws (p : PPayload T)
deriving DecidableEq

/-- `promise::get` (call_dag.h lines 148-154) on a cell in a given state.
`wait()` (lines 128-131) waits on the condition variable for `is_ready()`,
which never becomes true without a `set_value`/`set_exception` transition, so
a non-ready cell blocks the caller. -/
def promise_get {T : Type} (c : PCell T) : GetOutcome T :=
  if is_ready c = false then GetOutcome.blocks
  else if c.idx = 1 then GetOutcome.returns c.payload
  else GetOutcome.throws c.payload

/-- Destruction of a producer handle of the promise.  The `promise` class
declares no destructor and no broken-promise state (call_dag.h lines 37-172),
so destroying the producer performs no transition on the result cell; it is
the identity on the cell state. -/
def promise_destructor {T : Type} (c : PCell T) : PCell T := c

/-! ### The reduction tree over futures (fj_sort.h lines 95-154)

A resolved `boost::future<span>` either holds a span or holds a captured
exception; it is modelled as `Except E Sp`.  The continuation attached by
`reduce_futures2` (lines 113-121) runs `binary_op( result.get(), r.get() )`:
`result.get()` rethrows an exception stored in the left future, `r.get()` one
stored in the right future, and `boost::future::then` captures anything
thrown inside the continuation into the returned future. -/

/-- The composite of `(*l_it).then( ... )` at fj_sort.h lines 113-121 on two
resolved futures: an exception in the left future propagates (rethrown by
`result.get()`), else one in the right future propagates (rethrown by
`r.get()`), else the binary operation runs (its own outcome, value or
exception, is whatever `op` yields). -/
def thenMerge {E Sp : Type} (op : Sp → Sp → Except E Sp) :
    Except E Sp → Except E Sp → Except E Sp
  | Except.error e, _ => Except.error e
  | Except.ok _, Except.error e => Except.error e
  | Except.ok lv, Except.ok rv => op lv rv

/-- The `while( first != last )` pairing loop of `reduce_futures2`
(fj_sort.h lines 110-122) over an even-length run: consecutive elements are
combined pairwise, in order. -/
def pairUp {F : Type} (f : F → F → F) : List F → List F
  | [] => []
  | [_] => []
  | x :: y :: rest => f x y :: pairUp f rest

/-- `impl::reduce_futures2` (fj_sort.h lines 95-127): a single reduction
pass.  `range_sz == 1` passes the element through; an odd count excludes the
last element (`last = next(first, range_sz - 1)`, line 108) from the pairing
loop and appends it unchanged afterwards (lines 123-125); an even count pairs
everything.  `fs.drop (fs.length - 1)` is that excluded last element. -/
def reduce_futures2 {F : Type} (f : F → F → F) (fs : List F) : List F :=
  if fs.length = 1 then fs
  else if fs.length % 2 = 1 then
    pairUp f (fs.dropLast) ++ fs.drop (fs.length - 1)
  else pairUp f fs

/-- The `while( results.size() > 1 )` loop of `impl::reduce_futures`
(fj_sort.h lines 144-152), fuel-indexed: each iteration replaces the vector
by one `reduce_futures2` pass over it.  Once at most one element remains the
source returns `std::move( results.front() )`; `front()` on an empty vector
is undefined behaviour, modelled by `List.head?` returning `none`.  A pass
over two or more futures strictly shrinks the list
(`reduce_futures2_length_lt` below), so fuel `fs.length` never runs out. -/
def reduceLoopF {F : Type} (f : F → F → F) : ℕ → List F → Option F
  | 0, fs => if 1 < fs.length then none else fs.head?
  | fuel + 1, fs =>
    if 1 < fs.length then reduceLoopF f fuel (reduce_futures2 f fs)
    else fs.head?

/-- `impl::reduce_futures` (fj_sort.h lines 133-154): one initial
`reduce_futures2` pass into `results`, then the shrinking loop, then
`results.front()`. -/
def reduce_futures {F : Type} (f : F → F → F) (fs : List F) : Option F :=
  reduceLoopF f fs.length (reduce_futures2 f fs)

/-- The span bookkeeping of a successful `impl::parallel_sort_merger` call
(fj_sort.h lines 156-171) seen at the future level: the merged pair resolves
to the span `{l.begin(), r.end()}`. -/
def span_join : span → span → Except ℕ span :=
  fun l r => Except.ok ⟨l.first, r.last⟩

/-- `boost::future::wait()` as called at fj_sort.h line 204: blocks until the
future is ready and returns `void`; unlike `get()` it does not rethrow a
stored exception. -/
def fut_wait {E Sp : Type} (_ : Except E Sp) : Unit := ()

/-- The final statement of `fj_sort` (fj_sort.h lines 202-204):
`impl::reduce_futures( ... ).wait();` followed by normal return.  Whatever
the reduced future holds, `fj_sort` returns without failure. -/
def fj_sort_return {E Sp : Type} (x : Except E Sp) : Except E Unit :=
  Except.ok (fut_wait x)

/-! ### In-place sorting and merging of list ranges -/

/-- The elements of the sequence `v` at offsets `[a, b)`. -/
def slice (v : List α) (a b : ℕ) : List α := (v.drop a).take (b - a)

/-- The merge recursion, structurally recursive on a fuel argument so that it
evaluates by kernel reduction: every step consumes exactly one element and
one unit of fuel, so fuel `xs.length + ys.length` (as supplied by `mergeBy`)
is exact and the fuel-exhausted fallback `xs ++ ys` is only ever taken with
both lists empty. -/
def mergeByFuel (cmp : α → α → Bool) : ℕ → List α → List α → List α
  | 0, xs, ys => xs ++ ys
  | _ + 1, [], ys => ys
  | _ + 1, x :: xs, [] => x :: xs
  | fuel + 1, x :: xs, y :: ys =>
    if cmp y x then y :: mergeByFuel cmp fuel (x :: xs) ys
    else x :: mergeByFuel cmp fuel xs (y :: ys)

/-- `std::inplace_merge( first, middle, last, cmp )` as called at fj_sort.h
line 167: a stable merge of the two consecutive sorted ranges `[a, b)` and
`[b, c)`.  An element is taken from the right range only when it strictly
precedes the current left element under `cmp` (`cmp y x = true`), so equal
elements keep left-before-right order, as the C++ standard requires. -/
def mergeBy (cmp : α → α → Bool) (xs ys : List α) : List α :=
  mergeByFuel cmp (xs.length + ys.length) xs ys

/-- The effect of `std::inplace_merge( begin+a, begin+b, begin+c, cmp )` on
the sequence: the range `[a, c)` is replaced by the stable merge of its two
sorted halves, everything outside it is untouched. -/
def inplace_merge (cmp : α → α → Bool) (v : List α) (a b c : ℕ) : List α :=
  v.take a ++ mergeBy cmp (slice v a b) (slice v b c) ++ v.drop c

/-- `impl::parallel_sort_merger::operator()` (fj_sort.h lines 160-170) on the
sequence `v`: after `assert( l.end() == r.begin() )` it runs
`std::inplace_merge( l.begin(), l.end(), r.end(), cmp )` and returns
`span( l.begin(), r.end() )`.  The result is the mutated sequence together
with the returned span. -/
def parallel_sort_merger (cmp : α → α → Bool) (v : List α) (l r : span) :
    List α × span :=
  (inplace_merge cmp v l.first l.last r.last, ⟨l.first, r.last⟩)

/-- `x :: l` is non-descending at the head: the first element of `l`, if
any, does not strictly precede `x` under `cmp`. -/
def leHead (cmp : α → α → Bool) (x : α) : List α → Bool
  | [] => true
  | y :: _ => !cmp y x

/-- A list is in non-descending order per the comparator: no element strictly
precedes its predecessor. -/
def sortedBy (cmp : α → α → Bool) : List α → Bool
  | [] => true
  | x :: l => leHead cmp x l && sortedBy cmp l

/-- Insertion of one element into a run already sorted by `cmp`, keeping
equal elements after existing ones. -/
def insertBy (cmp : α → α → Bool) (x : α) : List α → List α
  | [] => [x]
  | y :: ys => if cmp y x then y :: insertBy cmp x ys else x :: y :: ys

/-- The `std::sort( f, l, cmp )` call inside the `sorter` lambda (fj_sort.h
lines 181-183): some comparison sort of the range per `cmp`; the engine is
agnostic to which one, so it is modelled as insertion sort. -/
def sortBy (cmp : α → α → Bool) : List α → List α
  | [] => []
  | x :: xs => insertBy cmp x (sortBy cmp xs)

/-- Replace the elements of `v` starting at offset `a` by `seg`. -/
def writeSlice (v : List α) (a : ℕ) (seg : List α) : List α :=
  v.take a ++ seg ++ v.drop (a + seg.length)

/-- The `sort_fn` lambda of `fj_sort` (fj_sort.h lines 189-193): sort the
sub-range described by the span in place and hand the span through. -/
def sort_fn (cmp : α → α → Bool) (v : List α) (s : span) : List α :=
  writeSlice v s.first (sortBy cmp (slice v s.first s.last))

/-- The submission loop of `fj_sort` (fj_sort.h lines 195-200): one sort task
per span.  The spans a correct partition produces are disjoint, so the net
effect on the sequence is each sub-range sorted, applied in span order. -/
def sortSegments (cmp : α → α → Bool) (v : List α) (spans : List span) : List α :=
  spans.foldl (sort_fn cmp) v

/-- One reduction pass of the merge tree acting on the sequence: consecutive
span pairs are merged in place by `parallel_sort_merger` and replaced by
their combined span; a leftover unpaired span passes through, exactly as in
`reduce_futures2`. -/
def mergePairsState (cmp : α → α → Bool) : List α → List span → List α × List span
  | v, [] => (v, [])
  | v, [s] => (v, [s])
  | v, l :: r :: rest =>
    let v1 := inplace_merge cmp v l.first l.last r.last
    let p := mergePairsState cmp v1 rest
    (p.1, span.mk l.first r.last :: p.2)

/-- The reduction driving loop at the sequence level: repeat `mergePairsState`
until at most one span remains (the `while( results.size() > 1 )` loop of
`reduce_futures`).  Each pass at least halves the span count, so fuel equal
to the initial span count suffices. -/
def reduceState (cmp : α → α → Bool) : ℕ → List α → List span → List α
  | 0, v, _ => v
  | fuel + 1, v, spans =>
    if spans.length ≤ 1 then v
    else
      let p := mergePairsState cmp v spans
      reduceState cmp fuel p.1 p.2

/-- `std::less<>` on `intmax_t`, the default comparator of `fj_sort`. -/
def intLt : ℤ → ℤ → Bool := fun a b => decide (a < b)

/-- `std::less<>` on a small concrete element type, used to instantiate the
generic theorems at fully decidable inputs. -/
def finLt : Fin 4 → Fin 4 → Bool := fun a b => decide (a < b)

/-- `daw::parallel::fj_sort` (fj_sort.h lines 177-205) as a function on the
sequence, with the parallelism `P` (in the source,
`std::thread::hardware_concurrency()`) as a parameter.  `none` models the
runs on which the C++ has no defined result: the partition loop not
terminating (`partition_range` out of fuel, which with fuel
`v.length + 1` only happens on the genuinely divergent `part_sz = 0`
runs), a produced span reaching outside `[first, last)` (the sort and merge
would read and write out of bounds), or `results.front()` being called on an
empty vector (empty input). -/
def fj_sort (P : ℕ) (cmp : α → α → Bool) (v : List α) : Option (List α) :=
  match partition_range v.length P (v.length + 1) with
  | none => none
  | some spans =>
    if spans = [] then none
    else if spans.all (fun s => decide (s.first ≤ s.last) && decide (s.last ≤ v.length)) then
      some (reduceState cmp spans.length (sortSegments cmp v spans) spans)
    else none

/-! ### The types accepted by the segment sorter (fj_sort.h lines 181-193)

`fj_sort` is declared for any `Iterator`, but the `sorter` lambda at line 181
takes `intmax_t *f, intmax_t *l`.  The call `sorter( cur_range.begin(),
cur_range.end(), comp )` at line 191 therefore needs the iterator type to be
implicitly convertible to `intmax_t *`. -/

/-- Element types a sequence iterator can point at: `intmax_t` or any other
type (indexed so there are infinitely many "other" types). -/
inductive CppElemT where
  | intmaxT
  | otherElem (id : ℕ)
deriving DecidableEq

/-- Iterator types `fj_sort` could be instantiated at: a raw pointer to some
element type, or a class-type iterator (such as a container iterator). -/
inductive CppIterT where
  | rawPtr (elem : CppElemT)
  | classIter (id : ℕ)
deriving DecidableEq

/-- Implicit convertibility to `intmax_t *` among the modelled iterator
types: a raw pointer `T *` converts exactly when `T` is `intmax_t`; a
class-type iterator has no implicit conversion to a raw pointer. -/
def convertible_to_intmax_ptr : CppIterT → Bool
  | CppIterT.rawPtr CppElemT.intmaxT => true
  | _ => false

/-- Whether the call `sorter( cur_range.begin(), cur_range.end(), comp )`
(fj_sort.h line 191) is well-formed for a given `Iterator`: the arguments of
type `Iterator` must convert to the lambda's `intmax_t *` parameters
(fj_sort.h line 181). -/
def fj_sort_segment_call_ok (it : CppIterT) : Bool :=
  convertible_to_intmax_ptr it

end daw

namespace daw

/-! ## Supporting lemmas -/

/-- With a positive chunk size, `start_pos` grows every iteration, so the
partition loop terminates within `S` iterations: the fuel
`v.length + 1` used by `fj_sort` never runs out on those runs. -/
theorem partLoop_fuel_enough (part S : ℕ) (hpart : 1 ≤ part) :
    ∀ fuel start, S ≤ start + fuel → partLoop part S fuel start ≠ none := by
  intro fuel
  induction fuel with
  | zero =>
    intro start h
    have hns : ¬ start < S := by omega
    simp [partLoop, hns]
  | succ n ih =>
    intro start h
    by_cases hs : start < S
    · simp only [partLoop, if_pos hs]
      intro hcon
      rcases hinner : partLoop part S n (start + part) with _ | p
      · exact ih (start + part) (by omega) hinner
      · rw [hinner] at hcon
        simp at hcon
    · simp [partLoop, hs]

/-- With `part_sz = 0` and a non-empty range of size 1, the partition loop
never advances `start_pos` and no amount of fuel finishes it. -/
theorem partLoop_zero_none : ∀ fuel, partLoop 0 1 fuel 0 = none := by
  intro fuel
  induction fuel with
  | zero => rfl
  | succ n ih => simp [partLoop, ih]

/-- A sanity check of the whole-engine model on ranges whose size the chunk
size divides exactly: the engine does sort them. -/
theorem fj_sort_sorts_exact_partition :
    fj_sort 2 intLt [3, 1, 2, 0] = some [0, 1, 2, 3] ∧
    fj_sort 3 intLt [9, 8, 7, 6, 5, 4, 3, 2, 1] =
      some [1, 2, 3, 4, 5, 6, 7, 8, 9] := ⟨by decide, by decide⟩

/-- List induction in steps of two, matching the shape of the pairing loop. -/
theorem twoStepInduction {F : Type} {motive : List F → Prop} (mnil : motive [])
    (msingle : ∀ x, motive [x])
    (mcons2 : ∀ x y rest, motive rest → motive (x :: y :: rest)) :
    ∀ l, motive l
  | [] => mnil
  | [x] => msingle x
  | x :: y :: rest => mcons2 x y rest (twoStepInduction mnil msingle mcons2 rest)

/-- The pairing loop halves the element count (rounding down). -/
theorem pairUp_length {F : Type} (f : F → F → F) :
    ∀ l : List F, (pairUp f l).length = l.length / 2 := by
  intro l
  induction l using twoStepInduction with
  | mnil => simp [pairUp]
  | msingle x => simp [pairUp]
  | mcons2 x y rest ih =>
    simp [pairUp, ih]
    omega

/-- A reduction pass over two or more futures strictly shrinks the list. -/
theorem reduce_futures2_length_lt {F : Type} (f : F → F → F) (fs : List F)
    (h : 1 < fs.length) : (reduce_futures2 f fs).length < fs.length := by
  unfold reduce_futures2
  have h1 : ¬ fs.length = 1 := by omega
  rw [if_neg h1]
  by_cases hodd : fs.length % 2 = 1
  · rw [if_pos hodd]
    simp [pairUp_length, List.length_dropLast]
    omega
  · rw [if_neg hodd]
    rw [pairUp_length]
    omega

/-- A reduction pass keeps the list of futures non-empty. -/
theorem reduce_futures2_ne_nil {F : Type} (f : F → F → F) (fs : List F)
    (h : fs ≠ []) : reduce_futures2 f fs ≠ [] := by
  unfold reduce_futures2
  have hpos : 0 < fs.length := List.length_pos.mpr h
  by_cases h1 : fs.length = 1
  · rw [if_pos h1]; exact h
  · rw [if_neg h1]
    by_cases hodd : fs.length % 2 = 1
    · rw [if_pos hodd]
      intro hcon
      have hlen := congrArg List.length hcon
      simp [pairUp_length, List.length_dropLast] at hlen
      omega
    · rw [if_neg hodd]
      intro hcon
      have hlen := congrArg List.length hcon
      simp [pairUp_length] at hlen
      omega

/-- A reduction pass never grows the list of futures. -/
theorem reduce_futures2_length_le {F : Type} (f : F → F → F) (fs : List F)
    (h : fs ≠ []) : (reduce_futures2 f fs).length ≤ fs.length := by
  by_cases h1 : fs.length = 1
  · unfold reduce_futures2
    rw [if_pos h1]
  · have hpos : 0 < fs.length := List.length_pos.mpr h
    have := reduce_futures2_length_lt f fs (by omega)
    omega

/-- An errored future in an even-length run survives the pairing loop: the
pair containing it resolves to an error. -/
theorem pairUp_keeps_error {E Sp : Type} (op : Sp → Sp → Except E Sp) :
    ∀ fs : List (Except E Sp), fs.length % 2 = 0 →
      (∃ e, Except.error e ∈ fs) →
      ∃ e2, Except.error e2 ∈ pairUp (thenMerge op) fs := by
  intro fs
  induction fs using twoStepInduction with
  | mnil =>
    intro _ herr
    obtain ⟨e, he⟩ := herr
    simp at he
  | msingle x =>
    intro hlen _
    simp at hlen
  | mcons2 x y rest ih =>
    intro hlen herr
    obtain ⟨e, he⟩ := herr
    simp only [pairUp]
    rcases List.mem_cons.mp he with hx | he2
    · refine ⟨e, List.mem_cons.mpr (Or.inl ?_)⟩
      rw [← hx]
      rfl
    · rcases List.mem_cons.mp he2 with hy | hrest
      · cases x with
        | error e3 =>
          exact ⟨e3, List.mem_cons.mpr (Or.inl rfl)⟩
        | ok lv =>
          refine ⟨e, List.mem_cons.mpr (Or.inl ?_)⟩
          rw [← hy]
          rfl
      · have hlen2 : rest.length % 2 = 0 := by
          simp at hlen
          omega
        obtain ⟨e2, h2⟩ := ih hlen2 ⟨e, hrest⟩
        exact ⟨e2, List.mem_cons.mpr (Or.inr h2)⟩

/-- An errored future survives one whole `reduce_futures2` pass. -/
theorem reduce_futures2_keeps_error {E Sp : Type} (op : Sp → Sp → Except E Sp)
    (fs : List (Except E Sp)) (herr : ∃ e, Except.error e ∈ fs) :
    ∃ e2, Except.error e2 ∈ reduce_futures2 (thenMerge op) fs := by
  unfold reduce_futures2
  by_cases h1 : fs.length = 1
  · rw [if_pos h1]; exact herr
  · rw [if_neg h1]
    by_cases hodd : fs.length % 2 = 1
    · rw [if_pos hodd]
      have hsplit : fs.dropLast ++ fs.drop (fs.length - 1) = fs := by
        rw [List.dropLast_eq_take]
        exact List.take_append_drop _ fs
      obtain ⟨e, he⟩ := herr
      rw [← hsplit] at he
      rcases List.mem_append.mp he with hin | hin
      · have hlen : fs.dropLast.length % 2 = 0 := by
          simp [List.length_dropLast]
          omega
        obtain ⟨e2, h2⟩ := pairUp_keeps_error op fs.dropLast hlen ⟨e, hin⟩
        exact ⟨e2, List.mem_append.mpr (Or.inl h2)⟩
      · exact ⟨e, List.mem_append.mpr (Or.inr hin)⟩
    · rw [if_neg hodd]
      have hlen : fs.length % 2 = 0 := by omega
      exact pairUp_keeps_error op fs hlen herr

/-- An errored future reaches the root of the reduction tree: the final
remaining future holds an error. -/
theorem reduceLoopF_keeps_error {E Sp : Type} (op : Sp → Sp → Except E Sp) :
    ∀ (fuel : ℕ) (fs : List (Except E Sp)), fs ≠ [] → fs.length ≤ fuel + 1 →
      (∃ e, Except.error e ∈ fs) →
      ∃ e2, reduceLoopF (thenMerge op) fuel fs = some (Except.error e2) := by
  intro fuel
  induction fuel with
  | zero =>
    intro fs hne hlen herr
    cases fs with
    | nil => exact absurd rfl hne
    | cons a t =>
      cases t with
      | nil =>
        obtain ⟨e, he⟩ := herr
        rw [List.mem_singleton] at he
        exact ⟨e, by simp [reduceLoopF, ← he]⟩
      | cons b t2 =>
        simp at hlen
  | succ n ih =>
    intro fs hne hlen herr
    by_cases h : 1 < fs.length
    · simp only [reduceLoopF, if_pos h]
      apply ih
      · exact reduce_futures2_ne_nil _ fs hne
      · have := reduce_futures2_length_lt (thenMerge op) fs h
        omega
      · exact reduce_futures2_keeps_error op fs herr
    · simp only [reduceLoopF, if_neg h]
      cases fs with
      | nil => exact absurd rfl hne
      | cons a t =>
        cases t with
        | nil =>
          obtain ⟨e, he⟩ := herr
          rw [List.mem_singleton] at he
          exact ⟨e, by simp [← he]⟩
        | cons b t2 =>
          exfalso
          simp at h

/-! ## The claims -/

/-- Claim C1: the spec says fj_sort leaves every finite sequence sorted; the
code does not.  On the spec's own concrete scenario, the five-element input
`[5,3,1,4,2]` with parallelism 2, the partition step produces the spans
`[0,2), [2,4), [4,6)`: the last span reaches offset 6 of a five-element
range, so the segment sort and the merges read and write out of bounds and
the run has no defined result (`none` in the model). -/
theorem fj_sort_out_of_bounds_on_spec_scenario :
    fj_sort 2 intLt [5, 3, 1, 4, 2] = none ∧
    partition_range 5 2 6 = some [span.mk 0 2, span.mk 2 4, span.mk 4 6] ∧
    5 < (span.mk 4 6).last := ⟨rfl, rfl, by decide⟩

/-- Claim C2: the spans produced by partition_range are claimed to stay
inside `[first, last)` and to cover it exactly, with one final span absorbing
the remainder.  For range size 5 and parallelism 2 the code instead emits a
third full-size chunk `[4,6)` that overruns the range end 5: the loop
`for( ; start_pos < range_sz; start_pos += part_sz )` emits a full chunk
whenever any element is left, and the remainder branch after it is dead. -/
theorem partition_range_last_span_overruns :
    partition_range 5 2 6 = some [span.mk 0 2, span.mk 2 4, span.mk 4 6] ∧
    5 < (span.mk 4 6).last := ⟨rfl, by decide⟩

/-- Claim C3: set_value on an Empty cell is claimed to move it to the Value
state with get() then returning the value.  Because the enum
`var_pos { pos_empty, pos_eptr, pos_value, pos_cont }` lists `pos_eptr`
before `pos_value` while the variant stores `T` at index 1 and
`exception_ptr` at index 2, `set_value` stores the value at index 2 — the
exception alternative.  `get()` (which tests the literal index 1) then takes
the rethrow branch and `has_value()` reports false. -/
theorem set_value_stores_into_exception_slot :
    set_value (emptyCell : PCell ℤ) 42 =
      SetResult.stored ⟨pos_value, PPayload.pval 42⟩ ∧
    pos_value = 2 ∧ pos_eptr = 1 ∧
    has_value (⟨pos_value, PPayload.pval 42⟩ : PCell ℤ) = false ∧
    promise_get (⟨pos_value, PPayload.pval 42⟩ : PCell ℤ) =
      GetOutcome.throws (PPayload.pval 42) := by decide

/-- Claim C4: a continuation is claimed to be invoked exactly once when the
promise is resolved.  The `switch( idx )` in `promise::set` has no `break`
after `case pos_value:`, so `set_value` on a cell holding a continuation
invokes the continuation twice — once with the value alternative and again,
through the fall-through, with the exception alternative — while
`set_exception` invokes it once. -/
theorem set_value_invokes_continuation_twice :
    set_value (⟨pos_cont, PPayload.pcont 7⟩ : PCell ℤ) 42 =
      SetResult.invoked [⟨0, PPayload.pval 42⟩, ⟨1, PPayload.pval 42⟩] ∧
    ([(⟨0, PPayload.pval 42⟩ : ContArg ℤ), ⟨1, PPayload.pval 42⟩]).length = 2 ∧
    set_exception (⟨pos_cont, PPayload.pcont 7⟩ : PCell ℤ) 9 =
      SetResult.invoked [⟨1, PPayload.perr 9⟩] := by decide

/-- Claim C5 (counterexample): a comparator failure is captured in the
segment future and propagates through the merge continuations to the final
future, but `fj_sort` ends with `.wait()`, which does not rethrow: with a
first segment future holding error 3, the reduced future holds that error
and `fj_sort` still returns normally, so the failure is not surfaced to the
caller as the claim states. -/
theorem fj_sort_returns_normally_despite_error :
    reduce_futures (thenMerge span_join)
        [Except.error 3, Except.ok (span.mk 1 2)] = some (Except.error 3) ∧
    fj_sort_return (Except.error 3 : Except ℕ span) = Except.ok () := ⟨rfl, rfl⟩

/-- Claim C5 (amended): an exception thrown during a segment sort is captured
as an Error in that segment's future and propagates through the merge
continuations, so the final reduced future holds an error; but `fj_sort`
waits on that future with `wait()` rather than `get()` and returns normally,
so the failure is not surfaced to the caller. -/
theorem error_propagates_but_wait_discards {E Sp : Type}
    (op : Sp → Sp → Except E Sp) (fs : List (Except E Sp)) (hne : fs ≠ [])
    (herr : ∃ e, Except.error e ∈ fs) :
    (∃ e2, reduce_futures (thenMerge op) fs = some (Except.error e2)) ∧
    (∀ g : Except E Sp, fj_sort_return g = Except.ok ()) := by
  constructor
  · unfold reduce_futures
    exact reduceLoopF_keeps_error op fs.length (reduce_futures2 (thenMerge op) fs)
      (reduce_futures2_ne_nil _ fs hne)
      (by have := reduce_futures2_length_le (thenMerge op) fs hne; omega)
      (reduce_futures2_keeps_error op fs herr)
  · intro g
    rfl

/-- Witness for the amended C5 theorem at a concrete run: two segment
futures, the left one holding error 3. -/
theorem error_propagates_but_wait_discards_witness :
    (∃ e2, reduce_futures (thenMerge span_join)
        [Except.error 3, Except.ok (span.mk 1 2)] = some (Except.error e2)) ∧
    (∀ g : Except ℕ span, fj_sort_return g = Except.ok ()) :=
  error_propagates_but_wait_discards span_join
    [Except.error 3, Except.ok (span.mk 1 2)]
    (List.cons_ne_nil _ _) ⟨3, List.mem_cons_self _ _⟩

/-- Claim C6: partition_range is claimed to terminate on every input and to
yield at least one span for a non-empty range smaller than the parallelism.
With range size 1 and parallelism 2 the chunk size is 0, `start_pos` never
advances and the loop never terminates (no fuel finishes it); the size-0
half of the claim does hold (an empty span list). -/
theorem partition_range_diverges_below_concurrency :
    (∀ fuel, partition_range 1 2 fuel = none) ∧
    partition_range 0 2 1 = some [] := by
  constructor
  · intro fuel
    have h := partLoop_zero_none fuel
    have h2 : (1 : ℕ) / 2 = 0 := rfl
    simp [partition_range, h2, h]
  · rfl

/-- Claim C7: on empty input the partitioner yields no spans and no task is
submitted, but `fj_sort` does not return cleanly: `reduce_futures` calls
`results.front()` on an empty vector (undefined behaviour, `none` in the
model), so the claimed immediate normal return does not happen. -/
theorem fj_sort_empty_calls_front_on_empty_vector :
    partition_range 0 4 1 = some [] ∧
    reduce_futures (thenMerge span_join) ([] : List (Except ℕ span)) = none ∧
    fj_sort 4 intLt ([] : List ℤ) = none := ⟨rfl, rfl, rfl⟩

/-- Claim C8 (counterexample): destroying the producer of a promise whose
cell is Empty is claimed to deliver a distinct broken-promise failure to
every waiter.  The promise class declares no destructor and no
broken-promise state: destruction leaves the cell Empty, `is_ready` stays
false, and a waiter in `wait()`/`get()` blocks forever instead of receiving
a failure. -/
theorem abandoned_promise_blocks_waiter :
    promise_destructor (emptyCell : PCell ℤ) = emptyCell ∧
    is_ready (emptyCell : PCell ℤ) = false ∧
    promise_get (emptyCell : PCell ℤ) = GetOutcome.blocks := by decide

/-- Claim C8 (amended): destroying a producer while the cell is Empty leaves
the cell unchanged — no broken-promise failure is recorded — and a waiter on
the Empty cell blocks indefinitely in `wait()`/`get()`. -/
theorem abandoned_promise_no_failure_reported :
    (∀ c : PCell ℤ, promise_destructor c = c) ∧
    is_ready (emptyCell : PCell ℤ) = false ∧
    promise_get (emptyCell : PCell ℤ) = GetOutcome.blocks :=
  ⟨fun _ => rfl, by decide, by decide⟩

/-- Claim C10: the segment-sort call inside fj_sort is well-formed exactly
when the `Iterator` type is (implicitly convertible to) `intmax_t *`, because
the `sorter` lambda hard-codes `intmax_t *` parameters; every other modelled
iterator type is rejected. -/
theorem fj_sort_only_welltyped_at_intmax_ptr :
    ∀ it : CppIterT,
      fj_sort_segment_call_ok it = true ↔
        it = CppIterT.rawPtr CppElemT.intmaxT := by
  intro it
  cases it with
  | rawPtr e =>
    cases e with
    | intmaxT => simp [fj_sort_segment_call_ok, convertible_to_intmax_ptr]
    | otherElem i => simp [fj_sort_segment_call_ok, convertible_to_intmax_ptr]
  | classIter i => simp [fj_sort_segment_call_ok, convertible_to_intmax_ptr]

end daw

namespace daw

/-! ## The merge step (claim C9) -/

/-- Unfolding `sortedBy` at a cons cell. -/
theorem sortedBy_cons (cmp : α → α → Bool) (x : α) (l : List α) :
    sortedBy cmp (x :: l) = (leHead cmp x l && sortedBy cmp l) := rfl

/-- Merging with the empty left run returns the right run. -/
theorem mergeByFuel_nil_left (cmp : α → α → Bool) :
    ∀ (fuel : ℕ) (ys : List α), mergeByFuel cmp fuel [] ys = ys := by
  intro fuel ys
  cases fuel with
  | zero => simp [mergeByFuel]
  | succ n => rfl

/-- Merging with the empty right run returns the left run. -/
theorem mergeByFuel_nil_right (cmp : α → α → Bool) :
    ∀ (fuel : ℕ) (xs : List α), mergeByFuel cmp fuel xs [] = xs := by
  intro fuel xs
  cases fuel with
  | zero => simp [mergeByFuel]
  | succ n =>
    cases xs with
    | nil => rfl
    | cons x xs => rfl

/-- The merge is a permutation of the two runs concatenated: no element is
created, dropped or duplicated. -/
theorem mergeByFuel_perm (cmp : α → α → Bool) :
    ∀ (fuel : ℕ) (xs ys : List α), (mergeByFuel cmp fuel xs ys).Perm (xs ++ ys) := by
  intro fuel
  induction fuel with
  | zero =>
    intro xs ys
    simp [mergeByFuel]
  | succ n ih =>
    intro xs ys
    cases xs with
    | nil => simp [mergeByFuel]
    | cons x xs =>
      cases ys with
      | nil => simp [mergeByFuel]
      | cons y ys =>
        simp only [mergeByFuel]
        by_cases h : cmp y x
        · rw [if_pos h]
          exact ((ih (x :: xs) ys).cons y).trans List.perm_middle.symm
        · rw [if_neg h]
          exact (ih xs (y :: ys)).cons x

/-- The left run appears in the merge in its original relative order. -/
theorem mergeByFuel_sublist_left (cmp : α → α → Bool) :
    ∀ (fuel : ℕ) (xs ys : List α), xs.Sublist (mergeByFuel cmp fuel xs ys) := by
  intro fuel
  induction fuel with
  | zero =>
    intro xs ys
    simp only [mergeByFuel]
    exact List.sublist_append_left xs ys
  | succ n ih =>
    intro xs ys
    cases xs with
    | nil => exact List.nil_sublist _
    | cons x xs =>
      cases ys with
      | nil =>
        rw [mergeByFuel_nil_right]
      | cons y ys =>
        simp only [mergeByFuel]
        by_cases h : cmp y x
        · rw [if_pos h]
          exact (ih (x :: xs) ys).cons y
        · rw [if_neg h]
          exact (ih xs (y :: ys)).cons₂ x

/-- The right run appears in the merge in its original relative order. -/
theorem mergeByFuel_sublist_right (cmp : α → α → Bool) :
    ∀ (fuel : ℕ) (xs ys : List α), ys.Sublist (mergeByFuel cmp fuel xs ys) := by
  intro fuel
  induction fuel with
  | zero =>
    intro xs ys
    simp only [mergeByFuel]
    exact List.sublist_append_right xs ys
  | succ n ih =>
    intro xs ys
    cases xs with
    | nil => rw [mergeByFuel_nil_left]
    | cons x xs =>
      cases ys with
      | nil => exact List.nil_sublist _
      | cons y ys =>
        simp only [mergeByFuel]
        by_cases h : cmp y x
        · rw [if_pos h]
          exact (ih (x :: xs) ys).cons₂ y
        · rw [if_neg h]
          exact (ih xs (y :: ys)).cons x

/-- Merging two runs sorted under an asymmetric comparator yields a sorted
run.  Asymmetry (`cmp a b → ¬cmp b a`) is what a strict weak ordering
guarantees about any two comparable elements. -/
theorem mergeByFuel_sorted (cmp : α → α → Bool)
    (hasym : ∀ a b, cmp a b = true → cmp b a = false) :
    ∀ (fuel : ℕ) (xs ys : List α), xs.length + ys.length ≤ fuel →
      sortedBy cmp xs = true → sortedBy cmp ys = true →
      sortedBy cmp (mergeByFuel cmp fuel xs ys) = true := by
  intro fuel
  induction fuel with
  | zero =>
    intro xs ys hle hxs hys
    cases xs with
    | nil =>
      cases ys with
      | nil => rfl
      | cons y ys => simp at hle
    | cons x xs => simp at hle
  | succ n ih =>
    intro xs ys hle hxs hys
    cases xs with
    | nil =>
      simp only [mergeByFuel]
      exact hys
    | cons x xs =>
      cases ys with
      | nil =>
        simp only [mergeByFuel]
        exact hxs
      | cons y ys =>
        rw [sortedBy_cons, Bool.and_eq_true] at hxs hys
        obtain ⟨hxs1, hxs2⟩ := hxs
        obtain ⟨hys1, hys2⟩ := hys
        simp only [mergeByFuel]
        by_cases h : cmp y x
        · rw [if_pos h]
          rw [sortedBy_cons, Bool.and_eq_true]
          constructor
          · cases ys with
            | nil =>
              rw [mergeByFuel_nil_right]
              simp [leHead, hasym y x h]
            | cons y2 ys2 =>
              cases n with
              | zero =>
                exfalso
                simp at hle
                omega
              | succ n2 =>
                simp only [mergeByFuel]
                by_cases h2 : cmp y2 x
                · rw [if_pos h2]
                  simp only [leHead] at hys1 ⊢
                  exact hys1
                · rw [if_neg h2]
                  simp [leHead, hasym y x h]
          · apply ih (x :: xs) ys
            · simp at hle ⊢
              omega
            · rw [sortedBy_cons, Bool.and_eq_true]
              exact ⟨hxs1, hxs2⟩
            · exact hys2
        · rw [if_neg h]
          rw [sortedBy_cons, Bool.and_eq_true]
          have hyx : cmp y x = false := by
            simp at h
            exact h
          constructor
          · cases xs with
            | nil =>
              rw [mergeByFuel_nil_left]
              simp [leHead, hyx]
            | cons x2 xs2 =>
              cases n with
              | zero =>
                exfalso
                simp at hle
                omega
              | succ n2 =>
                simp only [mergeByFuel]
                by_cases h2 : cmp y x2
                · rw [if_pos h2]
                  simp [leHead, hyx]
                · rw [if_neg h2]
                  simp only [leHead] at hxs1 ⊢
                  exact hxs1
          · apply ih xs (y :: ys)
            · simp at hle ⊢
              omega
            · exact hxs2
            · rw [sortedBy_cons, Bool.and_eq_true]
              exact ⟨hys1, hys2⟩

/-- `mergeBy` is a permutation of the two runs concatenated. -/
theorem mergeBy_perm (cmp : α → α → Bool) (xs ys : List α) :
    (mergeBy cmp xs ys).Perm (xs ++ ys) :=
  mergeByFuel_perm cmp _ xs ys

/-- The merge of two runs has their combined length. -/
theorem mergeBy_length (cmp : α → α → Bool) (xs ys : List α) :
    (mergeBy cmp xs ys).length = xs.length + ys.length := by
  have h := (mergeBy_perm cmp xs ys).length_eq
  simpa using h

/-- The left run is a sublist of the merge. -/
theorem mergeBy_sublist_left (cmp : α → α → Bool) (xs ys : List α) :
    xs.Sublist (mergeBy cmp xs ys) :=
  mergeByFuel_sublist_left cmp _ xs ys

/-- The right run is a sublist of the merge. -/
theorem mergeBy_sublist_right (cmp : α → α → Bool) (xs ys : List α) :
    ys.Sublist (mergeBy cmp xs ys) :=
  mergeByFuel_sublist_right cmp _ xs ys

/-- The merge of two sorted runs is sorted. -/
theorem mergeBy_sorted (cmp : α → α → Bool)
    (hasym : ∀ a b, cmp a b = true → cmp b a = false) (xs ys : List α)
    (hxs : sortedBy cmp xs = true) (hys : sortedBy cmp ys = true) :
    sortedBy cmp (mergeBy cmp xs ys) = true :=
  mergeByFuel_sorted cmp hasym _ xs ys (le_refl _) hxs hys

/-- The length of a slice whose right end is in range. -/
theorem slice_length (v : List α) (a b : ℕ) (hb : b ≤ v.length) :
    (slice v a b).length = b - a := by
  simp [slice]
  omega

/-- A slice splits at any interior point. -/
theorem slice_append_split (v : List α) (a b c : ℕ) (hab : a ≤ b) (hbc : b ≤ c) :
    slice v a c = slice v a b ++ slice v b c := by
  unfold slice
  have hdc : v.drop b = (v.drop a).drop (b - a) := by
    rw [List.drop_drop]
    congr 1
    omega
  rw [hdc]
  have h2 : c - a = (b - a) + (c - b) := by omega
  rw [h2, List.take_add]

/-- Claim C9: for adjacent spans `l`, `r` (`l.last = r.first`) over the
sequence `v`, each slice individually sorted under an asymmetric comparator,
`parallel_sort_merger` performs a stable in-place merge: the returned span is
`{l.first, r.last}`; the combined range of the mutated sequence equals the
stable merge of the two slices, is sorted, keeps each input slice as a
subsequence (stability), and is a permutation of the original combined
range; the sequence outside `[l.first, r.last)` is untouched. -/
theorem parallel_sort_merger_correct (cmp : α → α → Bool) (v : List α)
    (l r : span) (hasym : ∀ a b, cmp a b = true → cmp b a = false)
    (hadj : l.last = r.first) (h1 : l.first ≤ l.last) (h2 : r.first ≤ r.last)
    (h3 : r.last ≤ v.length)
    (hsl : sortedBy cmp (slice v l.first l.last) = true)
    (hsr : sortedBy cmp (slice v r.first r.last) = true) :
    (parallel_sort_merger cmp v l r).2 = span.mk l.first r.last ∧
    slice (parallel_sort_merger cmp v l r).1 l.first r.last =
      mergeBy cmp (slice v l.first l.last) (slice v r.first r.last) ∧
    sortedBy cmp (slice (parallel_sort_merger cmp v l r).1 l.first r.last) = true ∧
    (slice v l.first l.last).Sublist
      (slice (parallel_sort_merger cmp v l r).1 l.first r.last) ∧
    (slice v r.first r.last).Sublist
      (slice (parallel_sort_merger cmp v l r).1 l.first r.last) ∧
    (slice (parallel_sort_merger cmp v l r).1 l.first r.last).Perm
      (slice v l.first r.last) ∧
    (parallel_sort_merger cmp v l r).1.take l.first = v.take l.first ∧
    (parallel_sort_merger cmp v l r).1.drop r.last = v.drop r.last := by
  obtain ⟨a, b⟩ := l
  obtain ⟨b2, c⟩ := r
  dsimp only at hadj h1 h2 h3 hsl hsr ⊢
  subst hadj
  have hab : a ≤ b := h1
  have hbc : b ≤ c := h2
  have hcv : c ≤ v.length := h3
  have hbv : b ≤ v.length := le_trans hbc hcv
  have hav : a ≤ v.length := le_trans hab hbv
  simp only [parallel_sort_merger, inplace_merge, List.append_assoc]
  set xs := slice v a b with hxsdef
  set ys := slice v b c with hysdef
  set m := mergeBy cmp xs ys with hmdef
  have hlxs : xs.length = b - a := slice_length v a b hbv
  have hlys : ys.length = c - b := slice_length v b c hcv
  have hlm : m.length = (b - a) + (c - b) := by
    rw [hmdef, mergeBy_length, hlxs, hlys]
  have hta : (v.take a).length = a := by
    simp [List.length_take]
    omega
  have hdropa : (v.take a ++ (m ++ v.drop c)).drop a = m ++ v.drop c := by
    have h := List.drop_left (v.take a) (m ++ v.drop c)
    rwa [hta] at h
  have htakea : (v.take a ++ (m ++ v.drop c)).take a = v.take a := by
    have h := List.take_left (v.take a) (m ++ v.drop c)
    rwa [hta] at h
  have hcam : c - a = m.length := by omega
  have hslicew : slice (v.take a ++ (m ++ v.drop c)) a c = m := by
    unfold slice
    rw [hdropa, hcam]
    exact List.take_left m (v.drop c)
  have hdropc : (v.take a ++ (m ++ v.drop c)).drop c = v.drop c := by
    have e1 : (v.take a ++ (m ++ v.drop c)).drop c =
        ((v.take a ++ (m ++ v.drop c)).drop a).drop (c - a) := by
      rw [List.drop_drop]
      congr 1
      omega
    rw [e1, hdropa, hcam]
    exact List.drop_left m (v.drop c)
  refine ⟨trivial, hslicew, ?_, ?_, ?_, ?_, htakea, hdropc⟩
  · rw [hslicew, hmdef]
    exact mergeBy_sorted cmp hasym xs ys hsl hsr
  · rw [hslicew, hmdef]
    exact mergeBy_sublist_left cmp xs ys
  · rw [hslicew, hmdef]
    exact mergeBy_sublist_right cmp xs ys
  · rw [hslicew, hmdef]
    have hsplit : slice v a c = xs ++ ys := slice_append_split v a b c hab hbc
    rw [hsplit]
    exact mergeBy_perm cmp xs ys

/-- Witness for C9 at a concrete input: the sequence `[1,3,0,2]` over
`Fin 4`, spans `[0,2)` and `[2,4)`, both slices sorted under `<`. -/
theorem parallel_sort_merger_correct_witness :
    sortedBy finLt (slice [1, 3, 0, 2] 0 2) = true ∧
    sortedBy finLt (slice [1, 3, 0, 2] 2 4) = true ∧
    ((parallel_sort_merger finLt [1, 3, 0, 2] (span.mk 0 2) (span.mk 2 4)).2 =
        span.mk 0 4 ∧
      slice (parallel_sort_merger finLt [1, 3, 0, 2] (span.mk 0 2) (span.mk 2 4)).1 0 4 =
        mergeBy finLt (slice [1, 3, 0, 2] 0 2) (slice [1, 3, 0, 2] 2 4) ∧
      sortedBy finLt
          (slice (parallel_sort_merger finLt [1, 3, 0, 2] (span.mk 0 2) (span.mk 2 4)).1 0 4) =
        true ∧
      (slice [1, 3, 0, 2] 0 2).Sublist
        (slice (parallel_sort_merger finLt [1, 3, 0, 2] (span.mk 0 2) (span.mk 2 4)).1 0 4) ∧
      (slice [1, 3, 0, 2] 2 4).Sublist
        (slice (parallel_sort_merger finLt [1, 3, 0, 2] (span.mk 0 2) (span.mk 2 4)).1 0 4) ∧
      (slice (parallel_sort_merger finLt [1, 3, 0, 2] (span.mk 0 2) (span.mk 2 4)).1 0 4).Perm
        (slice [1, 3, 0, 2] 0 4) ∧
      (parallel_sort_merger finLt [1, 3, 0, 2] (span.mk 0 2) (span.mk 2 4)).1.take 0 =
        ([1, 3, 0, 2] : List (Fin 4)).take 0 ∧
      (parallel_sort_merger finLt [1, 3, 0, 2] (span.mk 0 2) (span.mk 2 4)).1.drop 4 =
        ([1, 3, 0, 2] : List (Fin 4)).drop 4) :=
  ⟨by decide, by decide,
    parallel_sort_merger_correct finLt [1, 3, 0, 2] (span.mk 0 2) (span.mk 2 4)
      (by decide) rfl (by decide) (by decide) (by decide) (by decide) (by decide)⟩

end daw
